import Mathlib

/-!
# Verification of the Bilibili video/audio download-merging tool

Shallow embedding of the core logic of the repository:

* `VideoAudioMerger.similarity` (src/video_audio_merger.py, line 174): the
  `difflib.SequenceMatcher(None, a, b).ratio()` string-similarity metric.
  The library algorithm is embedded for the no-junk case (`isjunk = None`,
  inputs shorter than 200 characters, so the autojunk heuristic is inert):
  `get_matching_blocks` recursively splits around the earliest longest
  common substring and `ratio = 2 * M / (len a + len b)`.
* `VideoAudioMerger.match_files` (lines 178-245): the two-pass
  exact/fuzzy greedy matcher.
* `VideoAudioMerger.merge_file` / `merge_all` (lines 247-368) and the GUI
  variants `merge_single` (gui_v2) and the submission loops (gui_v2/v3).
* `FFmpegProgress` (gui_v3, lines 28-97): the stateful progress parser.

Scores and thresholds are embedded as rationals (`ℚ`); Python floats are
exact on the small values compared here.
-/

namespace VAM

/-- A discovered media file: `path` is the full path string (the identity
Python compares with `Path.__eq__` / `str(...)`), `stem` the filename
without extension. -/
structure MediaFile where
  path : String
  stem : String
deriving DecidableEq, Repr

/-- `match_type` of a produced pair: `'exact'` or `'similar'`. -/
inductive MatchType where
  | exact
  | similar
deriving DecidableEq, Repr

/-- One entry of the list returned by `match_files`: the dict
`{'video': ..., 'audio': ..., 'match_type': ..., 'similarity': ...}`. -/
structure MatchResult where
  video : MediaFile
  audio : MediaFile
  mtype : MatchType
  similarity : ℚ
deriving DecidableEq, Repr

/-! ## difflib.SequenceMatcher ratio -/

/-- Length of the common prefix run of two character lists (the length of
the matching block starting at a fixed pair of positions). -/
def runLen : List Char → List Char → Nat
  | x :: xs, y :: ys => if x = y then runLen xs ys + 1 else 0
  | _, _ => 0

/-- Inner loop of `find_longest_match`: scan candidate start positions `j`
in `b`, keeping the first strictly longer block. -/
def flmInner (a b : List Char) (i : Nat) : List Nat → Nat × Nat × Nat → Nat × Nat × Nat
  | [], best => best
  | j :: js, best =>
    let k := runLen (a.drop i) (b.drop j)
    flmInner a b i js (if best.2.2 < k then (i, j, k) else best)

/-- Outer loop of `find_longest_match`: scan start positions `i` in `a`. -/
def flmOuter (a b : List Char) : List Nat → Nat × Nat × Nat → Nat × Nat × Nat
  | [], best => best
  | i :: is, best => flmOuter a b is (flmInner a b i (List.range b.length) best)

/-- `find_longest_match` over the whole of `a` and `b` (no junk): the
earliest (first in `a`, then in `b`) longest common substring, returned as
`(i, j, size)`; `(0, 0, 0)` when there is no common character. -/
def findLongestMatch (a b : List Char) : Nat × Nat × Nat :=
  flmOuter a b (List.range a.length) (0, 0, 0)

/-- Total size of all matching blocks (`get_matching_blocks` recursion),
with explicit fuel; `a.length + 1` fuel always suffices because every
recursive call is on a strictly shorter first list. -/
def matchTotalFuel : Nat → List Char → List Char → Nat
  | 0, _, _ => 0
  | fuel + 1, a, b =>
    let best := findLongestMatch a b
    let i := best.1
    let j := best.2.1
    let k := best.2.2
    if k = 0 then 0
    else
      matchTotalFuel fuel (a.take i) (b.take j) + k +
        matchTotalFuel fuel (a.drop (i + k)) (b.drop (j + k))

/-- `M`: the total length of matched blocks between `a` and `b`. -/
def matchTotal (a b : List Char) : Nat :=
  matchTotalFuel (a.length + 1) a b

/-- `SequenceMatcher(None, a, b).ratio() = 2*M / (len a + len b)`, and `1.0`
when both inputs are empty (difflib `_calculate_ratio`). -/
def ratioList (a b : List Char) : ℚ :=
  if a.length + b.length = 0 then 1
  else (2 * matchTotal a b : ℚ) / (a.length + b.length : ℚ)

/-- `VideoAudioMerger.similarity(a, b)` (line 174-176). -/
def similarity (a b : String) : ℚ :=
  ratioList a.data b.data

/-! ## match_files (lines 178-245)

Python `Path` equality compares the path string, and `matched_audio` is a
set of `str(audio)` values, so identity of files is by `path` throughout. -/

/-- One iteration of the `audio_dict` construction (lines 198-203): append
the audio to its stem's bucket, creating the bucket at the end on first
sight of the stem. -/
def addToDict (d : List (String × List MediaFile)) (a : MediaFile) :
    List (String × List MediaFile) :=
  if d.any (fun p => p.1 == a.stem) then
    d.map (fun p => if p.1 == a.stem then (p.1, p.2 ++ [a]) else p)
  else
    d ++ [(a.stem, [a])]

/-- `audio_dict`: buckets of audio files grouped by stem, in discovery
order. -/
def buildAudioDict (audios : List MediaFile) : List (String × List MediaFile) :=
  audios.foldl addToDict []

/-- Dictionary lookup: `audio_dict[stem]` guarded by `stem in audio_dict`. -/
def lookupDict (d : List (String × List MediaFile)) (s : String) :
    Option (List MediaFile) :=
  (d.find? (fun p => p.1 == s)).map Prod.snd

/-- The exact pass (lines 205-217): for each video in catalog order, claim
the first audio of its stem's bucket whose path is not yet in
`matched_audio`. -/
def exactLoop (dict : List (String × List MediaFile)) :
    List MediaFile → List MatchResult → List String →
    List MatchResult × List String
  | [], ms, ma => (ms, ma)
  | v :: vs, ms, ma =>
    match lookupDict dict v.stem with
    | none => exactLoop dict vs ms ma
    | some bucket =>
      match bucket.find? (fun a => !ma.contains a.path) with
      | none => exactLoop dict vs ms ma
      | some a => exactLoop dict vs (ms ++ [⟨v, a, .exact, 1⟩]) (ma ++ [a.path])

/-- `unmatched_videos` (line 220): videos not yet the video of any match. -/
def unmatchedVideos (videos : List MediaFile) (ms : List MatchResult) :
    List MediaFile :=
  videos.filter (fun v => !ms.any (fun m => m.video.path == v.path))

/-- `unmatched_audios` (line 221): audios whose path was not consumed. -/
def unmatchedAudios (audios : List MediaFile) (ma : List String) :
    List MediaFile :=
  audios.filter (fun a => !ma.contains a.path)

/-- The inner selection loop of the fuzzy pass (lines 225-233): the running
`(best_match, best_score)` pair, updated when
`score > best_score and score >= similarity_threshold`. -/
def bestLoop (th : ℚ) (f : MediaFile → ℚ) :
    List MediaFile → Option MediaFile × ℚ → Option MediaFile × ℚ
  | [], acc => acc
  | a :: rest, (bm, bs) =>
    let s := f a
    bestLoop th f rest (if bs < s ∧ th ≤ s then (some a, s) else (bm, bs))

/-- `list.remove(x)` on a list of `Path`s: drop the first element whose
path equals `x`'s (no-op when absent, which never happens here). -/
def removeFirst (x : MediaFile) : List MediaFile → List MediaFile
  | [] => []
  | y :: ys => if y.path == x.path then ys else y :: removeFirst x ys

/-- The fuzzy pass (lines 223-242): greedy per-video best-match selection
against the shrinking pool of unconsumed audios. -/
def fuzzyLoop (th : ℚ) :
    List MediaFile → List MatchResult → List MediaFile →
    List MatchResult × List MediaFile
  | [], ms, pool => (ms, pool)
  | v :: vs, ms, pool =>
    match bestLoop th (fun a => similarity v.stem a.stem) pool (none, 0) with
    | (some a, bs) =>
      fuzzyLoop th vs (ms ++ [⟨v, a, .similar, bs⟩]) (removeFirst a pool)
    | (none, _) => fuzzyLoop th vs ms pool

/-- `VideoAudioMerger.match_files(video_files, audio_files, threshold)`
(lines 178-245). -/
def match_files (videos audios : List MediaFile) (th : ℚ) : List MatchResult :=
  let d := buildAudioDict audios
  let e := exactLoop d videos [] []
  (fuzzyLoop th (unmatchedVideos videos e.1) e.1 (unmatchedAudios audios e.2)).1

/-- The matches produced by the exact pass alone. -/
def exactPassMatches (videos audios : List MediaFile) : List MatchResult :=
  (exactLoop (buildAudioDict audios) videos [] []).1

/-! ## Properties of the similarity ratio -/

theorem runLen_le_left (xs ys : List Char) : runLen xs ys ≤ xs.length := by
  induction xs generalizing ys with
  | nil => cases ys <;> simp [runLen]
  | cons x xt ih =>
    cases ys with
    | nil => simp [runLen]
    | cons y yt =>
      by_cases h : x = y
      · simpa [runLen, h] using ih yt
      · simp [runLen, h]

theorem runLen_self (xs : List Char) : runLen xs xs = xs.length := by
  induction xs with
  | nil => rfl
  | cons x xt ih => simp [runLen, ih]

theorem flmInner_fixed (a b : List Char) (i : Nat) (js : List Nat)
    (best : Nat × Nat × Nat)
    (h : ∀ j ∈ js, runLen (a.drop i) (b.drop j) ≤ best.2.2) :
    flmInner a b i js best = best := by
  induction js with
  | nil => rfl
  | cons j jt ih =>
    have hj : ¬ best.2.2 < runLen (a.drop i) (b.drop j) :=
      Nat.not_lt.mpr (h j (List.mem_cons_self _ _))
    simp only [flmInner, hj, if_neg, if_false]
    exact ih fun j' hj' => h j' (List.mem_cons_of_mem _ hj')

theorem flmOuter_fixed (a b : List Char) (is : List Nat)
    (best : Nat × Nat × Nat)
    (h : ∀ i ∈ is, ∀ j, runLen (a.drop i) (b.drop j) ≤ best.2.2) :
    flmOuter a b is best = best := by
  induction is with
  | nil => rfl
  | cons i it ih =>
    simp only [flmOuter]
    rw [flmInner_fixed a b i _ best fun j _ => h i (List.mem_cons_self _ _) j]
    exact ih fun i' hi' j => h i' (List.mem_cons_of_mem _ hi') j

theorem findLongestMatch_self (a : List Char) (h : a ≠ []) :
    findLongestMatch a a = (0, 0, a.length) := by
  obtain ⟨n, hn⟩ : ∃ n, a.length = n + 1 := by
    cases a with
    | nil => exact absurd rfl h
    | cons x xt => exact ⟨xt.length, rfl⟩
  have hbound : ∀ i j, runLen (a.drop i) (a.drop j) ≤ a.length :=
    fun i j => le_trans (runLen_le_left _ _) (by simp)
  unfold findLongestMatch
  conv_lhs => rw [hn, List.range_succ_eq_map]
  simp only [flmOuter]
  have hinner : flmInner a a 0 (List.range a.length) (0, 0, 0) = (0, 0, a.length) := by
    conv_lhs => rw [hn, List.range_succ_eq_map]
    simp only [flmInner, List.drop_zero, runLen_self]
    rw [if_pos (by omega)]
    exact flmInner_fixed a a 0 _ _ fun j _ => by
      simpa using runLen_le_left a (a.drop j)
  rw [hinner]
  exact flmOuter_fixed a a _ _ fun i _ j => hbound i j

theorem matchTotalFuel_nil_left (f : Nat) (b : List Char) :
    matchTotalFuel f [] b = 0 := by
  cases f with
  | zero => rfl
  | succ f => simp [matchTotalFuel, findLongestMatch, List.range, flmOuter]

theorem matchTotal_self (a : List Char) : matchTotal a a = a.length := by
  by_cases h : a = []
  · subst h; rfl
  · unfold matchTotal matchTotalFuel
    rw [findLongestMatch_self a h]
    have hlen : a.length ≠ 0 := by simpa using List.length_eq_zero.not.mpr h
    simp only [hlen, if_neg, if_false, List.take_zero, List.drop_length,
      Nat.zero_add, matchTotalFuel_nil_left]
    omega

/-- The similarity of any string with itself is `1.0` (both via the exact
computation and via difflib's empty-input special case). -/
theorem ratioList_self (a : List Char) : ratioList a a = 1 := by
  by_cases h : a = []
  · subst h; rfl
  · have hlen : a.length ≠ 0 := by simpa using List.length_eq_zero.not.mpr h
    unfold ratioList
    rw [if_neg (by omega), matchTotal_self]
    have : ((a.length : ℚ) + a.length) ≠ 0 := by
      have : (a.length : ℚ) ≠ 0 := Nat.cast_ne_zero.mpr hlen
      positivity
    field_simp
    ring

theorem runLen_disjoint (a b : List Char) (h : ∀ c ∈ a, c ∉ b)
    (xs ys : List Char) (hxs : ∀ c ∈ xs, c ∈ a) (hys : ∀ c ∈ ys, c ∈ b) :
    runLen xs ys = 0 := by
  cases xs with
  | nil => cases ys <;> rfl
  | cons x xt =>
    cases ys with
    | nil => rfl
    | cons y yt =>
      have hxy : x ≠ y := by
        intro he
        exact h x (hxs x (List.mem_cons_self _ _))
          (he ▸ hys y (List.mem_cons_self _ _))
      simp [runLen, hxy]

theorem matchTotal_disjoint (a b : List Char) (h : ∀ c ∈ a, c ∉ b) :
    matchTotal a b = 0 := by
  have hrun : ∀ i j, runLen (a.drop i) (b.drop j) = 0 := fun i j =>
    runLen_disjoint a b h _ _ (fun c hc => List.mem_of_mem_drop hc)
      (fun c hc => List.mem_of_mem_drop hc)
  unfold matchTotal matchTotalFuel
  have hflm : findLongestMatch a b = (0, 0, 0) := by
    unfold findLongestMatch
    exact flmOuter_fixed a b _ _ fun i _ j => le_of_eq (hrun i j)
  rw [hflm]
  simp

/-- C4 (counterexample): the similarity score of `VideoAudioMerger.similarity`
is not symmetric: `similarity("tide","diet") = 0.25` but
`similarity("diet","tide") = 0.5` (difflib's earliest-longest-block greedy
recursion is order-dependent). -/
theorem C4_similarity_not_symmetric :
    similarity "tide" "diet" = 1 / 4 ∧ similarity "diet" "tide" = 1 / 2 ∧
      similarity "tide" "diet" ≠ similarity "diet" "tide" := by
  have h1 : matchTotal "tide".data "diet".data = 1 := by decide
  have h2 : matchTotal "diet".data "tide".data = 2 := by decide
  have l1 : "tide".data.length = 4 := by decide
  have l2 : "diet".data.length = 4 := by decide
  unfold similarity ratioList
  rw [h1, h2, l1, l2]
  norm_num

/-- C4 (amended): the score of two identical strings is `1.0`, and the
score of two strings sharing no characters is `0.0` unless both are empty
(two empty strings score `1.0`); symmetry, however, does not hold in
general. -/
theorem C4_similarity_identity_disjoint :
    (∀ s : String, similarity s s = 1) ∧
      (∀ s t : String, (∀ c ∈ s.data, c ∉ t.data) →
        s.data ≠ [] ∨ t.data ≠ [] → similarity s t = 0) := by
  constructor
  · intro s
    exact ratioList_self s.data
  · intro s t hdisj hne
    unfold similarity ratioList
    have hlen : s.data.length + t.data.length ≠ 0 := by
      rcases hne with hs | ht
      · have := List.length_pos.mpr hs; omega
      · have := List.length_pos.mpr ht; omega
    rw [if_neg hlen, matchTotal_disjoint s.data t.data hdisj]
    simp

/-- C4 witness: the amended theorem applied at concrete inputs. -/
theorem C4_witness : similarity "xyz" "xyz" = 1 ∧ similarity "ab" "cd" = 0 :=
  ⟨C4_similarity_identity_disjoint.1 "xyz",
    C4_similarity_identity_disjoint.2 "ab" "cd" (by decide) (Or.inl (by decide))⟩

/-! ## C2: the exact pass refines its specification -/

/-- The exact pass as the spec words it: each video, in catalog order, is
paired with the first not-yet-consumed audio file of its stem's bucket
(buckets group audios by stem preserving discovery order, so that audio is
the first unconsumed audio in discovery order whose stem equals the
video's), with match type Exact and score 1.0, consuming the audio; a
video whose stem has no bucket or whose bucket is exhausted stays
unmatched. -/
def exactSpecLoop (audios : List MediaFile) :
    List MediaFile → List MatchResult → List String →
    List MatchResult × List String
  | [], ms, ma => (ms, ma)
  | v :: vs, ms, ma =>
    match audios.find? (fun a => a.stem == v.stem && !ma.contains a.path) with
    | none => exactSpecLoop audios vs ms ma
    | some a =>
      exactSpecLoop audios vs (ms ++ [⟨v, a, .exact, 1⟩]) (ma ++ [a.path])

/-- The bucket a stem gets from `audio_dict`: all audios of that stem in
discovery order, or nothing when the stem never occurred. -/
def bucketSpec (audios : List MediaFile) (s : String) : Option (List MediaFile) :=
  if (audios.filter (fun a => a.stem == s)).isEmpty then none
  else some (audios.filter (fun a => a.stem == s))

theorem lookupDict_addToDict (d : List (String × List MediaFile))
    (a : MediaFile) (s : String) :
    lookupDict (addToDict d a) s =
      if s = a.stem then some ((lookupDict d s).getD [] ++ [a])
      else lookupDict d s := by
  unfold addToDict lookupDict
  by_cases hany : d.any (fun p => p.1 == a.stem)
  · rw [if_pos hany, List.find?_map, Option.map_map]
    have hcomp : ((fun p : String × List MediaFile => p.1 == s) ∘
        fun p => if p.1 == a.stem then (p.1, p.2 ++ [a]) else p) =
        fun p => p.1 == s := by
      funext p
      by_cases h : p.1 = a.stem <;> simp [h]
    rw [hcomp]
    cases hfind : d.find? (fun p => p.1 == s) with
    | none =>
      by_cases hs : s = a.stem
      · exfalso
        obtain ⟨p, hp, hps⟩ := List.any_eq_true.mp hany
        have := List.find?_eq_none.mp hfind p hp
        rw [hs] at this
        exact this hps
      · simp [hs]
    | some p₀ =>
      have hp₀ : p₀.1 = s := by simpa using List.find?_some hfind
      by_cases hs : s = a.stem
      · have hpe : p₀.1 = a.stem := hp₀.trans hs
        simp [hs, Function.comp, hpe]
      · have hpe : ¬ p₀.1 = a.stem := fun he => hs (hp₀ ▸ he)
        simp [hs, Function.comp, hpe]
  · rw [if_neg hany, List.find?_append]
    have hanyf : (d.any fun p => p.1 == a.stem) = false :=
      Bool.eq_false_iff.mpr hany
    by_cases hs : s = a.stem
    · have hn : d.find? (fun p => p.1 == s) = none := by
        rw [List.find?_eq_none]
        intro p hp hps
        have := List.any_eq_false.mp hanyf p hp
        rw [hs] at hps
        exact this hps
      rw [hn]
      have hsingle : ([(a.stem, [a])].find? fun p => p.1 == s) =
          some (a.stem, [a]) := by
        simp [List.find?, hs]
      rw [hsingle]
      simp [hs, hn]
    · have hsingle : ([(a.stem, [a])].find? fun p => p.1 == s) = none := by
        have hb : (a.stem == s) = false :=
          beq_eq_false_iff_ne.mpr fun he => hs he.symm
        simp [List.find?, hb]
      rw [hsingle]
      simp [hs]

theorem lookupDict_foldl (audios : List MediaFile)
    (acc : List (String × List MediaFile)) (s : String) :
    lookupDict (audios.foldl addToDict acc) s =
      match lookupDict acc s with
      | some l => some (l ++ audios.filter (fun a => a.stem == s))
      | none => bucketSpec audios s := by
  induction audios generalizing acc with
  | nil => cases h : lookupDict acc s <;> simp [bucketSpec, h]
  | cons a rest ih =>
    simp only [List.foldl_cons]
    rw [ih, lookupDict_addToDict]
    by_cases hs : s = a.stem
    · have hfa : (a.stem == s) = true := by simp [hs]
      cases h : lookupDict acc s with
      | some l => simp [h, hs, hfa, List.filter_cons]
      | none => simp [h, hs, hfa, List.filter_cons, bucketSpec]
    · have hfa : (a.stem == s) = false := by
        simp only [beq_eq_false_iff_ne, ne_eq]
        exact fun he => hs he.symm
      cases h : lookupDict acc s <;>
        simp [h, hs, hfa, List.filter_cons, bucketSpec]

theorem lookupDict_buildAudioDict (audios : List MediaFile) (s : String) :
    lookupDict (buildAudioDict audios) s = bucketSpec audios s := by
  unfold buildAudioDict
  rw [lookupDict_foldl]
  rfl

theorem find?_filter_and {α : Type} (l : List α) (p q : α → Bool) :
    (l.filter p).find? q = l.find? (fun x => p x && q x) := by
  induction l with
  | nil => rfl
  | cons x xs ih =>
    by_cases hp : p x
    · rw [List.filter_cons_of_pos hp]
      by_cases hq : q x
      · simp [List.find?_cons, hp, hq]
      · have hq' : q x = false := by simpa using hq
        simp [List.find?_cons, hp, hq', ih]
    · have hp' : p x = false := by simpa using hp
      rw [List.filter_cons_of_neg (by simp [hp'])]
      simp [List.find?_cons, hp', ih]

theorem exactLoop_eq_spec (audios : List MediaFile) (vs : List MediaFile)
    (ms : List MatchResult) (ma : List String) :
    exactLoop (buildAudioDict audios) vs ms ma = exactSpecLoop audios vs ms ma := by
  induction vs generalizing ms ma with
  | nil => rfl
  | cons v vt ih =>
    simp only [exactLoop, exactSpecLoop]
    rw [lookupDict_buildAudioDict]
    have hkey : (audios.filter (fun a => a.stem == v.stem)).find?
        (fun a => !ma.contains a.path) =
        audios.find? (fun a => a.stem == v.stem && !ma.contains a.path) :=
      find?_filter_and audios _ _
    by_cases hemp : (audios.filter (fun a => a.stem == v.stem)).isEmpty
    · rw [bucketSpec, if_pos hemp]
      have hnone : audios.find?
          (fun a => a.stem == v.stem && !ma.contains a.path) = none := by
        rw [← hkey, List.isEmpty_iff.mp hemp]
        rfl
      rw [hnone]
      exact ih ms ma
    · rw [bucketSpec, if_neg hemp]
      dsimp only
      rw [hkey]
      cases hfind : audios.find?
          (fun a => a.stem == v.stem && !ma.contains a.path) with
      | none => exact ih ms ma
      | some a => exact ih _ _

/-- `match_files` with the exact pass replaced by its specification. -/
def match_files_exactSpec (videos audios : List MediaFile) (th : ℚ) :
    List MatchResult :=
  let e := exactSpecLoop audios videos [] []
  (fuzzyLoop th (unmatchedVideos videos e.1) e.1 (unmatchedAudios audios e.2)).1

/-- C2: the exact pass of `match_files` behaves exactly as specified:
audios are bucketed by stem in discovery order, each video in catalog
order takes the first unconsumed audio of its stem's bucket as an Exact
match with score 1.0, consuming it, and a video with no (or an exhausted)
bucket stays unmatched by this pass. -/
theorem C2_exact_pass_correct :
    (∀ (audios vs : List MediaFile) (ms : List MatchResult) (ma : List String),
      exactLoop (buildAudioDict audios) vs ms ma = exactSpecLoop audios vs ms ma) ∧
    ∀ (videos audios : List MediaFile) (th : ℚ),
      match_files videos audios th = match_files_exactSpec videos audios th := by
  refine ⟨exactLoop_eq_spec, fun videos audios th => ?_⟩
  simp only [match_files, match_files_exactSpec, exactLoop_eq_spec]

/-! ## C3: the fuzzy pass -/

/-- The largest score any pool element reaches, with base `b` (the running
best the loop starts from; `match_files` starts it at `0`). -/
def maxFrom (f : MediaFile → ℚ) (pool : List MediaFile) (b : ℚ) : ℚ :=
  pool.foldr (fun a m => max (f a) m) b

theorem le_maxFrom (f : MediaFile → ℚ) (l : List MediaFile) (b : ℚ) :
    b ≤ maxFrom f l b := by
  induction l with
  | nil => exact le_refl b
  | cons x xs ih => exact le_trans ih (le_max_right _ _)

theorem maxFrom_base (f : MediaFile → ℚ) (l : List MediaFile) {b c : ℚ}
    (h : b ≤ c) : maxFrom f l c = max c (maxFrom f l b) := by
  induction l with
  | nil => simp [maxFrom, max_eq_left h]
  | cons x xs ih =>
    simp only [maxFrom, List.foldr_cons] at *
    rw [ih]
    rw [max_left_comm]

/-- Characterization of the inner loop of the fuzzy pass: starting from
`(bm, bs)`, it returns the first pool element attaining the maximum score
`M` together with `M`, provided some element strictly beats `bs` and `M`
clears the threshold; otherwise it returns the start state unchanged. -/
theorem bestLoop_eq (th : ℚ) (f : MediaFile → ℚ) (pool : List MediaFile)
    (bm : Option MediaFile) (bs : ℚ) :
    bestLoop th f pool (bm, bs) =
      if bs < maxFrom f pool bs ∧ th ≤ maxFrom f pool bs then
        (pool.find? (fun a => f a == maxFrom f pool bs), maxFrom f pool bs)
      else (bm, bs) := by
  induction pool generalizing bm bs with
  | nil =>
    simp [bestLoop, maxFrom]
  | cons a rest ih =>
    simp only [bestLoop]
    by_cases h1 : bs < f a ∧ th ≤ f a
    · rw [if_pos h1, ih]
      have hbase : maxFrom f (a :: rest) bs = maxFrom f rest (f a) := by
        rw [maxFrom_base f rest (le_of_lt h1.1)]
        rfl
      have hle : f a ≤ maxFrom f rest (f a) := le_maxFrom f rest (f a)
      by_cases h2 : f a < maxFrom f rest (f a) ∧ th ≤ maxFrom f rest (f a)
      · rw [if_pos h2, if_pos (by rw [hbase]; exact ⟨lt_trans h1.1 h2.1, h2.2⟩)]
        rw [hbase]
        have hne : (f a == maxFrom f rest (f a)) = false :=
          beq_eq_false_iff_ne.mpr (ne_of_lt h2.1)
        simp [List.find?_cons, hne]
      · have heq : maxFrom f rest (f a) = f a := by
          rcases lt_or_eq_of_le hle with hlt | he
          · exact absurd ⟨hlt, le_trans h1.2 (le_of_lt hlt)⟩ h2
          · exact he.symm
        rw [if_neg h2, if_pos (by rw [hbase, heq]; exact h1)]
        rw [hbase, heq]
        simp [List.find?_cons]
    · rw [if_neg h1, ih]
      have hmax : maxFrom f (a :: rest) bs = max (f a) (maxFrom f rest bs) := by
        simp [maxFrom]
      by_cases h2 : bs < maxFrom f rest bs ∧ th ≤ maxFrom f rest bs
      · -- the accepted case propagates from the tail
        have hsle : f a ≤ maxFrom f rest bs := by
          by_contra hgt
          push_neg at hgt
          exact h1 ⟨lt_of_le_of_lt (le_maxFrom f rest bs) hgt,
            le_of_lt (lt_of_le_of_lt h2.2 hgt)⟩
        have hMf : maxFrom f (a :: rest) bs = maxFrom f rest bs := by
          rw [hmax]
          exact max_eq_right hsle
        rw [hMf, if_pos h2, if_pos h2]
        have hne : f a ≠ maxFrom f rest bs := by
          intro he
          exact h1 ⟨he ▸ h2.1, he ▸ h2.2⟩
        have hne' : (f a == maxFrom f rest bs) = false := beq_eq_false_iff_ne.mpr hne
        simp [List.find?_cons, hne']
      · have hcond : ¬ (bs < maxFrom f (a :: rest) bs ∧
            th ≤ maxFrom f (a :: rest) bs) := by
          rintro ⟨hlt, hth⟩
          rw [hmax] at hlt hth
          rcases le_total (f a) (maxFrom f rest bs) with hle' | hle'
          · rw [max_eq_right hle'] at hlt hth
            exact h2 ⟨hlt, hth⟩
          · rw [max_eq_left hle'] at hlt hth
            exact h1 ⟨hlt, hth⟩
        rw [if_neg h2, if_neg hcond]

/-- The fuzzy pass as the (amended) spec words it: each video left
unmatched by the exact pass, in catalog order, is paired with the
still-unconsumed audio attaining the strictly highest similarity score
against its stem (ties keep the first-seen audio); the pair is accepted
exactly when that score is `>= threshold` **and** `> 0` (for a positive
threshold this is exactly `score >= threshold`, a score equal to the
threshold being accepted), and an accepted audio is removed from the
unconsumed pool immediately. -/
def fuzzySpecLoop (th : ℚ) :
    List MediaFile → List MatchResult → List MediaFile →
    List MatchResult × List MediaFile
  | [], ms, pool => (ms, pool)
  | v :: vs, ms, pool =>
    let f := fun a => similarity v.stem a.stem
    let M := maxFrom f pool 0
    if 0 < M ∧ th ≤ M then
      match pool.find? (fun a => f a == M) with
      | some a =>
        fuzzySpecLoop th vs (ms ++ [⟨v, a, .similar, M⟩]) (removeFirst a pool)
      | none => fuzzySpecLoop th vs ms pool
    else fuzzySpecLoop th vs ms pool

theorem fuzzyLoop_eq_spec (th : ℚ) (vs : List MediaFile)
    (ms : List MatchResult) (pool : List MediaFile) :
    fuzzyLoop th vs ms pool = fuzzySpecLoop th vs ms pool := by
  induction vs generalizing ms pool with
  | nil => rfl
  | cons v vt ih =>
    simp only [fuzzyLoop, fuzzySpecLoop]
    rw [bestLoop_eq th _ pool none 0]
    by_cases hc : 0 < maxFrom (fun a => similarity v.stem a.stem) pool 0 ∧
        th ≤ maxFrom (fun a => similarity v.stem a.stem) pool 0
    · rw [if_pos hc, if_pos hc]
      cases hfind : pool.find? (fun a =>
          similarity v.stem a.stem == maxFrom (fun a => similarity v.stem a.stem) pool 0) with
      | none => exact ih ms pool
      | some a => exact ih _ _
    · rw [if_neg hc, if_neg hc]
      exact ih ms pool

/-- `match_files` with the fuzzy pass replaced by its specification. -/
def match_files_fuzzySpec (videos audios : List MediaFile) (th : ℚ) :
    List MatchResult :=
  let e := exactLoop (buildAudioDict audios) videos [] []
  (fuzzySpecLoop th (unmatchedVideos videos e.1) e.1 (unmatchedAudios audios e.2)).1

/-- C3 (amended): the fuzzy pass selects, for each video left unmatched by
the exact pass in catalog order, the still-unconsumed audio with the
strictly highest similarity score (ties keeping the first-seen audio),
accepts the pair exactly when the score is both `>= threshold` and `> 0`
(so for positive thresholds, exactly when `score >= threshold`, a score
equal to the threshold being accepted), and removes an accepted audio from
the unconsumed pool immediately. -/
theorem C3_fuzzy_pass_correct :
    (∀ (th : ℚ) (vs : List MediaFile) (ms : List MatchResult)
        (pool : List MediaFile),
      fuzzyLoop th vs ms pool = fuzzySpecLoop th vs ms pool) ∧
    ∀ (videos audios : List MediaFile) (th : ℚ),
      match_files videos audios th = match_files_fuzzySpec videos audios th := by
  refine ⟨fuzzyLoop_eq_spec, fun videos audios th => ?_⟩
  simp only [match_files, match_files_fuzzySpec, fuzzyLoop_eq_spec]

/-- C3 (counterexample): at threshold 0, a video/audio pair with
similarity score exactly 0 (equal to the threshold) is **not** accepted:
the claim that a score equal to the threshold is always accepted fails,
because the loop requires `score > best_score` with `best_score`
initialized to 0. -/
theorem C3_counterexample :
    similarity "a" "b" = 0 ∧
      match_files [⟨"v1.mp4", "a"⟩] [⟨"a1.m4a", "b"⟩] 0 = [] := by
  have hsim : similarity "a" "b" = 0 := by
    have hmt := matchTotal_disjoint "a".data "b".data (by decide)
    unfold similarity ratioList
    rw [hmt]
    have hl : "a".data.length = 1 := by decide
    have hl' : "b".data.length = 1 := by decide
    rw [hl, hl']
    norm_num
  refine ⟨hsim, ?_⟩
  simp only [match_files]
  have hex : exactLoop (buildAudioDict [⟨"a1.m4a", "b"⟩]) [⟨"v1.mp4", "a"⟩] [] []
      = ([], []) := rfl
  rw [hex]
  have huv : unmatchedVideos [⟨"v1.mp4", "a"⟩] ([], ([] : List String)).1
      = [⟨"v1.mp4", "a"⟩] := rfl
  have hua : unmatchedAudios [⟨"a1.m4a", "b"⟩] ([] : List String) = [⟨"a1.m4a", "b"⟩] := rfl
  rw [fuzzyLoop_eq_spec]
  simp only [fuzzySpecLoop, huv, hua]
  have hM : maxFrom (fun a => similarity "a" a.stem) [⟨"a1.m4a", "b"⟩] 0 = 0 := by
    simp only [maxFrom, List.foldr_cons, List.foldr_nil]
    rw [show similarity "a" (MediaFile.mk "a1.m4a" "b").stem = 0 from hsim]
    simp
  rw [hM]
  rw [if_neg (by simp)]

/-! ## C1: the one-to-one pairing invariant -/

theorem nodup_concat {α : Type} [DecidableEq α] (l : List α) (x : α) :
    (l ++ [x]).Nodup ↔ l.Nodup ∧ x ∉ l := by
  rw [List.nodup_append]
  constructor
  · rintro ⟨h1, _, hd⟩
    exact ⟨h1, fun hx => hd hx (List.mem_singleton_self x)⟩
  · rintro ⟨h1, hx⟩
    exact ⟨h1, List.nodup_singleton x,
      fun y hy hy' => hx (List.mem_singleton.mp hy' ▸ hy)⟩

theorem exactLoop_inv (d : List (String × List MediaFile)) (vs : List MediaFile)
    (ms : List MatchResult) (ma : List String)
    (h1 : ma = ms.map (fun m => m.audio.path))
    (h2 : ma.Nodup)
    (h3 : (ms.map (fun m => m.video.path) ++ vs.map (fun v => v.path)).Nodup) :
    (exactLoop d vs ms ma).2 =
        ((exactLoop d vs ms ma).1.map (fun m => m.audio.path)) ∧
      (exactLoop d vs ms ma).2.Nodup ∧
      ((exactLoop d vs ms ma).1.map (fun m => m.video.path)).Nodup := by
  induction vs generalizing ms ma with
  | nil =>
    refine ⟨h1, h2, ?_⟩
    simpa using h3
  | cons v vt ih =>
    have h3' : (ms.map (fun m => m.video.path) ++ vt.map (fun v => v.path)).Nodup := by
      refine List.Nodup.sublist ?_ h3
      exact List.Sublist.append_left (List.sublist_cons_self _ _) _
    simp only [exactLoop]
    cases hlook : lookupDict d v.stem with
    | none =>
      dsimp only
      exact ih ms ma h1 h2 h3'
    | some bucket =>
      dsimp only
      cases hfind : bucket.find? (fun a => !ma.contains a.path) with
      | none =>
        dsimp only
        exact ih ms ma h1 h2 h3'
      | some a =>
        dsimp only
        have hnew : a.path ∉ ma := by
          have := List.find?_some hfind
          simpa using this
        refine ih _ _ ?_ ?_ ?_
        · rw [h1, List.map_append]
          rfl
        · exact (nodup_concat ma a.path).mpr ⟨h2, hnew⟩
        · have hasc : ((ms ++ [(⟨v, a, .exact, 1⟩ : MatchResult)]).map
              (fun m => m.video.path) ++ vt.map (fun v => v.path)) =
              (ms.map (fun m => m.video.path) ++
                (v.path :: vt.map (fun v => v.path))) := by
            rw [List.map_append, List.append_assoc]
            rfl
          rw [hasc]
          exact h3

theorem removeFirst_map_path (a : MediaFile) (pool : List MediaFile) :
    (removeFirst a pool).map (fun x => x.path) =
      ((pool.map (fun x => x.path)).erase a.path) := by
  induction pool with
  | nil => rfl
  | cons y ys ih =>
    simp only [removeFirst]
    by_cases h : y.path = a.path
    · rw [if_pos (by simpa using h), List.map_cons, ← h, List.erase_cons_head]
    · rw [if_neg (by simpa using h), List.map_cons, List.map_cons,
        List.erase_cons_tail (by simpa using h), ih]

theorem bestLoop_mem (th : ℚ) (f : MediaFile → ℚ) (pool : List MediaFile)
    (bm : Option MediaFile) (bs : ℚ) (a : MediaFile) (s : ℚ)
    (h : bestLoop th f pool (bm, bs) = (some a, s)) :
    bm = some a ∨ a ∈ pool := by
  induction pool generalizing bm bs with
  | nil =>
    left
    simpa [bestLoop] using congrArg Prod.fst h
  | cons x xs ih =>
    simp only [bestLoop] at h
    by_cases hc : bs < f x ∧ th ≤ f x
    · rw [if_pos hc] at h
      rcases ih _ _ h with hx | hx
      · right
        exact (Option.some_inj.mp hx) ▸ List.mem_cons_self x xs
      · right
        exact List.mem_cons_of_mem x hx
    · rw [if_neg hc] at h
      rcases ih _ _ h with hx | hx
      · left; exact hx
      · right; exact List.mem_cons_of_mem x hx

theorem fuzzyLoop_inv (th : ℚ) (vs : List MediaFile) (ms : List MatchResult)
    (pool : List MediaFile)
    (h1 : (ms.map (fun m => m.audio.path) ++ pool.map (fun x => x.path)).Nodup)
    (h2 : (ms.map (fun m => m.video.path) ++ vs.map (fun v => v.path)).Nodup) :
    ((fuzzyLoop th vs ms pool).1.map (fun m => m.audio.path)).Nodup ∧
      ((fuzzyLoop th vs ms pool).1.map (fun m => m.video.path)).Nodup := by
  induction vs generalizing ms pool with
  | nil =>
    constructor
    · exact List.Nodup.sublist (List.sublist_append_left _ _) h1
    · simpa using h2
  | cons v vt ih =>
    have h2' : (ms.map (fun m => m.video.path) ++ vt.map (fun v => v.path)).Nodup :=
      List.Nodup.sublist (List.Sublist.append_left (List.sublist_cons_self _ _) _) h2
    simp only [fuzzyLoop]
    cases hbest : bestLoop th (fun a => similarity v.stem a.stem) pool (none, 0) with
    | mk bm bs =>
      cases bm with
      | none =>
        dsimp only
        exact ih ms pool h1 h2'
      | some a =>
        dsimp only
        have hmem : a ∈ pool := by
          rcases bestLoop_mem th _ pool none 0 a bs hbest with hx | hx
          · exact absurd hx (by simp)
          · exact hx
        have hmempath : a.path ∈ pool.map (fun x => x.path) :=
          List.mem_map_of_mem _ hmem
        refine ih _ _ ?_ ?_
        · -- audio invariant after consuming a
          have hperm : (ms.map (fun m => m.audio.path) ++ pool.map (fun x => x.path)).Perm
              ((ms ++ [(⟨v, a, .similar, bs⟩ : MatchResult)]).map (fun m => m.audio.path) ++
                (removeFirst a pool).map (fun x => x.path)) := by
            rw [removeFirst_map_path, List.map_append]
            simp only [List.map_cons, List.map_nil]
            rw [List.append_assoc]
            exact List.Perm.append_left _ (List.perm_cons_erase hmempath)
          exact hperm.nodup h1
        · have hasc : ((ms ++ [(⟨v, a, .similar, bs⟩ : MatchResult)]).map
              (fun m => m.video.path) ++ vt.map (fun v => v.path)) =
              (ms.map (fun m => m.video.path) ++
                (v.path :: vt.map (fun v => v.path))) := by
            rw [List.map_append, List.append_assoc]
            rfl
          rw [hasc]
          exact h2

/-- C1 (amended): for input lists whose video paths are pairwise distinct
and whose audio paths are pairwise distinct (as produced by a directory
scan), every video and every audio appears in at most one returned
MatchCandidate. With duplicated input entries the invariant fails (see the
counterexample). -/
theorem C1_match_files_one_to_one (videos audios : List MediaFile) (th : ℚ)
    (hv : (videos.map (fun v => v.path)).Nodup)
    (ha : (audios.map (fun a => a.path)).Nodup) :
    ((match_files videos audios th).map (fun m => m.video.path)).Nodup ∧
      ((match_files videos audios th).map (fun m => m.audio.path)).Nodup := by
  obtain ⟨hE1, hE2, hE3⟩ :=
    exactLoop_inv (buildAudioDict audios) videos [] [] rfl List.nodup_nil
      (by simpa using hv)
  have hmsA : ((exactLoop (buildAudioDict audios) videos [] []).1.map
      (fun m => m.audio.path)).Nodup := hE1 ▸ hE2
  have hpool : (((unmatchedAudios audios
      (exactLoop (buildAudioDict audios) videos [] []).2)).map
      (fun x => x.path)).Nodup := by
    refine List.Nodup.sublist ?_ ha
    exact List.Sublist.map _ (List.filter_sublist _)
  have h1₀ : ((exactLoop (buildAudioDict audios) videos [] []).1.map
      (fun m => m.audio.path) ++
      (unmatchedAudios audios
        (exactLoop (buildAudioDict audios) videos [] []).2).map
        (fun x => x.path)).Nodup := by
    rw [List.nodup_append]
    refine ⟨hmsA, hpool, ?_⟩
    intro x hx hx'
    rw [← hE1] at hx
    obtain ⟨a', ha', hpath⟩ := List.mem_map.mp hx'
    obtain ⟨_, hpred⟩ := List.mem_filter.mp ha'
    rw [hpath] at hpred
    simp only [Bool.not_eq_true'] at hpred
    have hnotmem : x ∉ (exactLoop (buildAudioDict audios) videos [] []).2 := by
      simpa using hpred
    exact hnotmem (hpath ▸ hx)
  have huvs : ((unmatchedVideos videos
      (exactLoop (buildAudioDict audios) videos [] []).1).map
      (fun v => v.path)).Nodup := by
    refine List.Nodup.sublist ?_ hv
    exact List.Sublist.map _ (List.filter_sublist _)
  have h2₀ : ((exactLoop (buildAudioDict audios) videos [] []).1.map
      (fun m => m.video.path) ++
      (unmatchedVideos videos
        (exactLoop (buildAudioDict audios) videos [] []).1).map
        (fun v => v.path)).Nodup := by
    rw [List.nodup_append]
    refine ⟨hE3, huvs, ?_⟩
    intro x hx hx'
    obtain ⟨u, hu, hupath⟩ := List.mem_map.mp hx'
    obtain ⟨_, hpred⟩ := List.mem_filter.mp hu
    obtain ⟨m, hm, hmpath⟩ := List.mem_map.mp hx
    have : (exactLoop (buildAudioDict audios) videos [] []).1.any
        (fun mm => mm.video.path == u.path) = true := by
      rw [List.any_eq_true]
      exact ⟨m, hm, by rw [hmpath, hupath]; simp⟩
    simp [this] at hpred
  have hF := fuzzyLoop_inv th
    (unmatchedVideos videos (exactLoop (buildAudioDict audios) videos [] []).1)
    (exactLoop (buildAudioDict audios) videos [] []).1
    (unmatchedAudios audios (exactLoop (buildAudioDict audios) videos [] []).2)
    h1₀ h2₀
  simp only [match_files]
  exact ⟨hF.2, hF.1⟩

/-- C1 witness: the amended theorem applied to a concrete duplicate-free
input. -/
theorem C1_witness :
    ((match_files [⟨"v1.mp4", "ep1"⟩] [⟨"a1.m4a", "ep1"⟩] (8 / 10)).map
        (fun m => m.video.path)).Nodup ∧
      ((match_files [⟨"v1.mp4", "ep1"⟩] [⟨"a1.m4a", "ep1"⟩] (8 / 10)).map
        (fun m => m.audio.path)).Nodup :=
  C1_match_files_one_to_one _ _ _ (by decide) (by decide)

/-- C1 (counterexample): on an input *list* that repeats the same video
file, `match_files` pairs that one video with two different audios, so the
one-to-one invariant fails for arbitrary input lists: the claim holds only
for duplicate-free inputs. -/
theorem C1_counterexample :
    (match_files [⟨"v.mp4", "x"⟩, ⟨"v.mp4", "x"⟩]
        [⟨"p1.m4a", "x"⟩, ⟨"p2.m4a", "x"⟩] 1).map (fun m => m.video.path) =
      ["v.mp4", "v.mp4"] ∧
    ¬ (["v.mp4", "v.mp4"] : List String).Nodup := by
  exact ⟨rfl, by decide⟩

/-! ## The merge step and batch orchestrator

`VideoAudioMerger.merge_file` / `merge_all` (src/video_audio_merger.py,
lines 247-368) and `VideoAudioMergerGUI.merge_single` / `merge_all`
(gui_v2). The external tool process is abstracted by its observable
behavior; the streams and codes are the data the Python code branches on. -/

/-- Abstract behavior of one external ffmpeg process: the wall-clock time
it would take, its exit code and output streams, and whether the
`subprocess` call raises instead of running (spawn failure). -/
structure ProcBehavior where
  duration : ℚ
  exitCode : Int
  stdout : String
  stderr : String
  raises : Option String
deriving DecidableEq, Repr

/-- Result of a `subprocess.run` call. -/
inductive RunResult where
  | completed (code : Int) (out err : String)
  | timedOut
  | raised (msg : String)
deriving DecidableEq, Repr

/-- `subprocess.run(cmd, capture_output=True, ..., timeout=t?)`: raises on
spawn failure; when a timeout is passed and the process would outlive it,
the process is killed and `TimeoutExpired` is raised; otherwise the
completed process is returned. With `timeout=None` the call waits
indefinitely. -/
def runProc (p : ProcBehavior) (timeout : Option ℚ) : RunResult :=
  match p.raises with
  | some m => .raised m
  | none =>
    match timeout with
    | none => .completed p.exitCode p.stdout p.stderr
    | some t =>
      if p.duration ≤ t then .completed p.exitCode p.stdout p.stderr
      else .timedOut

/-- Python `s[-n:]`: the last `n` characters of a string. -/
def tailStr (n : Nat) (s : String) : String :=
  ⟨s.data.drop (s.data.length - n)⟩

/-- `str(subprocess.TimeoutExpired(cmd, 300))` as caught by the GUI's bare
`except Exception as e` and turned into `str(e)`. -/
def timeoutMsg : String := "Command timed out after 300 seconds"

/-- `VideoAudioMerger.merge_file` (lines 247-306): the Python
`(success, message)` return value, paired with whether `subprocess.run`
was reached (no process is launched when the output-exists check fires).
Note that **no** `timeout=` argument is passed to `subprocess.run` here,
so `runProc` is called with `none`. -/
def merge_file (outputExists overwrite : Bool) (outputPath : String)
    (p : ProcBehavior) : (Bool × String) × Bool :=
  if outputExists && !overwrite then
    ((false, "输出文件已存在: " ++ outputPath), false)
  else
    match runProc p none with
    | .completed code _ err =>
      if code = 0 then ((true, outputPath), true)
      else
        ((false, "FFmpeg错误: " ++
          (if err = "" then "未知错误" else tailStr 500 err)), true)
    | .timedOut => ((false, "执行失败: " ++ timeoutMsg), true)
    | .raised m => ((false, "执行失败: " ++ m), true)

/-- `VideoAudioMergerGUI.merge_single` (gui_v2, lines 941-986): same
command but `subprocess.run(..., timeout=300)`, and a bare
`except Exception as e: return False, str(e)` that renders a timeout as a
generic `(False, str(e))` failure. -/
def merge_single (outputExists overwrite : Bool) (outputPath : String)
    (p : ProcBehavior) : (Bool × String) × Bool :=
  if outputExists && !overwrite then
    ((false, "文件已存在"), false)
  else
    match runProc p (some 300) with
    | .completed code _ err =>
      if code = 0 then ((true, outputPath), true)
      else ((false, if err = "" then "未知错误" else tailStr 200 err), true)
    | .timedOut => ((false, timeoutMsg), true)
    | .raised m => ((false, m), true)

/-- The only writer of the output file is a launched tool process: the
file's content after the merge step is the tool's effect exactly when a
process was launched, and the original content otherwise. -/
def fileAfterMerge {α : Type} (launched : Bool) (toolEffect : α → α)
    (content : α) : α :=
  if launched then toolEffect content else content

/-- One row of `merge_all`'s `results` list. -/
structure MergeRecord where
  video : MediaFile
  audio : MediaFile
  success : Bool
  message : String
deriving DecidableEq, Repr

/-- Per-task environment: whether the task's resolved output path exists,
the path, and the external process's behavior for that task. -/
structure TaskEnv where
  outputExists : Bool
  outputPath : String
  proc : ProcBehavior

/-- `VideoAudioMerger.merge_all` (lines 308-368): every match is submitted
and yields exactly one result record; a failing task never stops the
batch. (The thread pool's completion order is abstracted to submission
order; the facts proved about it concern only which records exist and the
tally.) -/
def merge_all (tasks : List MatchResult) (env : MatchResult → TaskEnv)
    (overwrite : Bool) : List MergeRecord :=
  tasks.map fun m =>
    let r := merge_file (env m).outputExists overwrite (env m).outputPath (env m).proc
    ⟨m.video, m.audio, r.1.1, r.1.2⟩

/-- The callers' success tally `sum(1 for r in results if r['success'])`. -/
def successCount (results : List MergeRecord) : Nat :=
  results.countP (fun r => r.success)

/-- One observation of the GUI's `is_running` flag per loop iteration:
`running i` is the value the loop reads at iteration `i`. Both the v2
submission loop (`for match in self.matches: if not self.is_running:
break; executor.submit(...)`) and the v3 sequential merge loop
(`for i, match in enumerate(self.matches): if not self.is_running: break`)
stop at the first false observation. -/
def submitLoopAux (running : Nat → Bool) :
    Nat → List MatchResult → List MatchResult
  | _, [] => []
  | i, m :: rest =>
    if running i then m :: submitLoopAux running (i + 1) rest else []

/-- The tasks actually started by the orchestrator's submission loop. -/
def submitLoop (running : Nat → Bool) (tasks : List MatchResult) :
    List MatchResult :=
  submitLoopAux running 0 tasks

/-! ## C5: the 300-second timeout -/

/-- C5 (counterexample): a merge process that would run 301 seconds is
**not** killed by the CLI `merge_file` — `subprocess.run` is called with
no `timeout=` there — and with exit code 0 the Task's outcome is plain
success, not any ProcessTimeout outcome. -/
theorem C5_counterexample :
    merge_file false false "out.mp4" ⟨301, 0, "", "", none⟩ =
      ((true, "out.mp4"), true) := rfl

/-- C5 (amended): the CLI `merge_file` enforces no wall-clock timeout (its
outcome is independent of the process's duration, so a process running
longer than 300 seconds is never killed), while the GUI v2 `merge_single`
passes `timeout=300`, kills such a process, but reports it through the
same generic `(False, str(exception))` failure shape as any other error —
there is no ProcessTimeout status distinct from a tool error. -/
theorem C5_timeout_behavior (p : ProcBehavior) (path : String)
    (hnr : p.raises = none) (hdur : 300 < p.duration) :
    (∀ ow : Bool, merge_file false ow path p =
      merge_file false ow path { p with duration := 0 }) ∧
    (∀ ow : Bool, merge_single false ow path p = ((false, timeoutMsg), true)) := by
  constructor
  · intro ow
    simp [merge_file, runProc, hnr]
  · intro ow
    have hgt : ¬ p.duration ≤ 300 := not_le.mpr hdur
    simp [merge_single, runProc, hnr, hgt]

/-- C5 witness: the amended theorem applied to a concrete 400-second
process. -/
theorem C5_witness :
    merge_file false false "o.mp4" ⟨400, 1, "", "boom", none⟩ =
      merge_file false false "o.mp4" ⟨0, 1, "", "boom", none⟩ ∧
    merge_single false false "o.mp4" ⟨400, 1, "", "boom", none⟩ =
      ((false, timeoutMsg), true) := by
  have h := C5_timeout_behavior ⟨400, 1, "", "boom", none⟩ "o.mp4" rfl (by norm_num)
  exact ⟨h.1 false, h.2 false⟩

/-! ## C8: SkippedExists launches nothing and leaves the file untouched -/

/-- C8: when the resolved output path exists and overwrite is off, both
merge implementations return the skip outcome without launching a process,
and the output file's content is unchanged (only a launched process can
write it). -/
theorem C8_skip_exists_no_launch {α : Type} (path : String) (p : ProcBehavior)
    (eff : α → α) (content : α) :
    merge_file true false path p = ((false, "输出文件已存在: " ++ path), false) ∧
    merge_single true false path p = ((false, "文件已存在"), false) ∧
    fileAfterMerge (merge_file true false path p).2 eff content = content ∧
    fileAfterMerge (merge_single true false path p).2 eff content = content :=
  ⟨rfl, rfl, rfl, rfl⟩

/-! ## C7: non-zero exit codes -/

/-- C7 (counterexample): when the tool exits non-zero with an **empty**
error stream, the diagnostic carried by the outcome is the placeholder
`未知错误`, which is not a tail (suffix) of the error stream. -/
theorem C7_counterexample :
    merge_file false false "out.mp4" ⟨1, 1, "", "", none⟩ =
      ((false, "FFmpeg错误: " ++ "未知错误"), true) ∧
    ¬ "未知错误".data.IsSuffix "".data :=
  ⟨rfl, by decide⟩

theorem tailStr_suffix (n : Nat) (s : String) :
    (tailStr n s).data.IsSuffix s.data := by
  show (s.data.drop (s.data.length - n)).IsSuffix s.data
  exact List.drop_suffix _ _

theorem tailStr_length_le (n : Nat) (s : String) : (tailStr n s).length ≤ n := by
  show (s.data.drop (s.data.length - n)).length ≤ n
  rw [List.length_drop]
  omega

/-- C7 (amended): for a Task whose tool process exits non-zero with a
nonempty error stream, the outcome is the tool-error failure
`(False, "FFmpeg错误: " ++ d)` where the diagnostic `d` is a suffix of the
error stream of at most 500 characters (when the stream is empty a fixed
placeholder is used instead); the batch yields one record per task
regardless, and the tally counts the failing task as a failure. -/
theorem C7_tool_error (tasks : List MatchResult) (env : MatchResult → TaskEnv)
    (m : MatchResult) (hm : m ∈ tasks)
    (hraise : (env m).proc.raises = none)
    (hexists : (env m).outputExists = false)
    (hcode : (env m).proc.exitCode ≠ 0)
    (herr : (env m).proc.stderr ≠ "") :
    (merge_file (env m).outputExists false (env m).outputPath (env m).proc =
        ((false, "FFmpeg错误: " ++ tailStr 500 (env m).proc.stderr), true) ∧
      (tailStr 500 (env m).proc.stderr).data.IsSuffix (env m).proc.stderr.data ∧
      (tailStr 500 (env m).proc.stderr).length ≤ 500) ∧
    (merge_all tasks env false).length = tasks.length ∧
    (⟨m.video, m.audio, false,
        "FFmpeg错误: " ++ tailStr 500 (env m).proc.stderr⟩ : MergeRecord) ∈
      merge_all tasks env false ∧
    0 < (merge_all tasks env false).countP (fun r => !r.success) := by
  have hout : merge_file (env m).outputExists false (env m).outputPath (env m).proc =
      ((false, "FFmpeg错误: " ++ tailStr 500 (env m).proc.stderr), true) := by
    rw [hexists]
    simp [merge_file, runProc, hraise, hcode, herr]
  refine ⟨⟨hout, tailStr_suffix _ _, tailStr_length_le _ _⟩, ?_, ?_, ?_⟩
  · exact List.length_map _ _
  · refine List.mem_map.mpr ⟨m, hm, ?_⟩
    rw [hout]
  · rw [List.countP_pos_iff]
    refine ⟨⟨m.video, m.audio, false,
      "FFmpeg错误: " ++ tailStr 500 (env m).proc.stderr⟩, ?_, rfl⟩
    refine List.mem_map.mpr ⟨m, hm, ?_⟩
    rw [hout]

/-- C7 witness: the amended theorem applied to a one-task batch whose tool
exits 1 with error stream "boom". -/
theorem C7_witness :
    (merge_file false false "o.mp4" ⟨1, 1, "", "boom", none⟩ =
        ((false, "FFmpeg错误: " ++ tailStr 500 "boom"), true) ∧
      (tailStr 500 "boom").data.IsSuffix "boom".data ∧
      (tailStr 500 "boom").length ≤ 500) ∧
    (merge_all [⟨⟨"v", "s"⟩, ⟨"a", "s"⟩, .exact, 1⟩]
        (fun _ => ⟨false, "o.mp4", ⟨1, 1, "", "boom", none⟩⟩) false).length = 1 ∧
    (⟨⟨"v", "s"⟩, ⟨"a", "s"⟩, false, "FFmpeg错误: " ++ tailStr 500 "boom"⟩ : MergeRecord) ∈
      merge_all [⟨⟨"v", "s"⟩, ⟨"a", "s"⟩, .exact, 1⟩]
        (fun _ => ⟨false, "o.mp4", ⟨1, 1, "", "boom", none⟩⟩) false ∧
    0 < (merge_all [⟨⟨"v", "s"⟩, ⟨"a", "s"⟩, .exact, 1⟩]
        (fun _ => ⟨false, "o.mp4", ⟨1, 1, "", "boom", none⟩⟩) false).countP
      (fun r => !r.success) :=
  C7_tool_error [⟨⟨"v", "s"⟩, ⟨"a", "s"⟩, .exact, 1⟩]
    (fun _ => ⟨false, "o.mp4", ⟨1, 1, "", "boom", none⟩⟩)
    ⟨⟨"v", "s"⟩, ⟨"a", "s"⟩, .exact, 1⟩ (List.mem_singleton_self _)
    rfl rfl (by decide) (by decide)

/-! ## C6: cancellation stops scheduling -/

theorem submitLoopAux_take (running : Nat → Bool) (tasks : List MatchResult)
    (i k : Nat)
    (hmono : ∀ j j', j ≤ j' → running j = false → running j' = false)
    (hk : running k = false) :
    ∃ n, submitLoopAux running i tasks = tasks.take n ∧ i + n ≤ max i k := by
  induction tasks generalizing i with
  | nil => exact ⟨0, rfl, by omega⟩
  | cons m rest ih =>
    by_cases hr : running i
    · have hik : i < k := by
        by_contra hge
        push_neg at hge
        rw [hmono k i hge hk] at hr
        exact Bool.false_ne_true hr
      obtain ⟨n, he, hn⟩ := ih (i + 1)
      refine ⟨n + 1, ?_, ?_⟩
      · simp only [submitLoopAux, if_pos hr, he, List.take_succ_cons]
      · have : i + 1 + n ≤ max (i + 1) k := hn
        omega
    · have hr' : running i = false := Bool.eq_false_iff.mpr hr
      exact ⟨0, by simp [submitLoopAux, hr'], by omega⟩

/-- C6: once the cancellation flag is observed false (and it never comes
back, the GUI only ever sets `is_running = False` on stop), the submission
loop starts no further task: the started tasks are a prefix of the task
list of length at most the index `k` of any false observation. -/
theorem C6_cancellation_stops_scheduling (tasks : List MatchResult)
    (running : Nat → Bool) (k : Nat)
    (hmono : ∀ j j', j ≤ j' → running j = false → running j' = false)
    (hk : running k = false) :
    ∃ n, submitLoop running tasks = tasks.take n ∧ n ≤ k := by
  obtain ⟨n, he, hn⟩ := submitLoopAux_take running tasks 0 k hmono hk
  exact ⟨n, he, by omega⟩

/-- C6 witness: a flag that turns false at the third observation stops a
four-task batch after at most two tasks. -/
theorem C6_witness :
    ∃ n, submitLoop (fun i => decide (i < 2))
        [⟨⟨"v1", "a"⟩, ⟨"a1", "a"⟩, .exact, 1⟩,
         ⟨⟨"v2", "b"⟩, ⟨"a2", "b"⟩, .exact, 1⟩,
         ⟨⟨"v3", "c"⟩, ⟨"a3", "c"⟩, .exact, 1⟩,
         ⟨⟨"v4", "d"⟩, ⟨"a4", "d"⟩, .exact, 1⟩] =
      List.take n
        [⟨⟨"v1", "a"⟩, ⟨"a1", "a"⟩, .exact, 1⟩,
         ⟨⟨"v2", "b"⟩, ⟨"a2", "b"⟩, .exact, 1⟩,
         ⟨⟨"v3", "c"⟩, ⟨"a3", "c"⟩, .exact, 1⟩,
         ⟨⟨"v4", "d"⟩, ⟨"a4", "d"⟩, .exact, 1⟩] ∧ n ≤ 2 :=
  C6_cancellation_stops_scheduling _ _ 2
    (fun j j' hle hf => by
      simp only [decide_eq_false_iff_not, not_lt] at hf ⊢
      omega)
    (by decide)

/-! ## C10: exact matches precede fuzzy matches -/

theorem exactLoop_extend (d : List (String × List MediaFile))
    (vs : List MediaFile) (ms : List MatchResult) (ma : List String) :
    ∃ l, (exactLoop d vs ms ma).1 = ms ++ l ∧
      (l.map (fun m => m.video)).Sublist vs ∧
      ∀ m ∈ l, m.mtype = MatchType.exact := by
  induction vs generalizing ms ma with
  | nil => exact ⟨[], by simp [exactLoop], List.nil_sublist _, by simp⟩
  | cons v vt ih =>
    simp only [exactLoop]
    cases hlook : lookupDict d v.stem with
    | none =>
      dsimp only
      obtain ⟨l, he, hs, hx⟩ := ih ms ma
      exact ⟨l, he, hs.cons v, hx⟩
    | some bucket =>
      dsimp only
      cases hfind : bucket.find? (fun a => !ma.contains a.path) with
      | none =>
        dsimp only
        obtain ⟨l, he, hs, hx⟩ := ih ms ma
        exact ⟨l, he, hs.cons v, hx⟩
      | some a =>
        dsimp only
        obtain ⟨l, he, hs, hx⟩ := ih (ms ++ [⟨v, a, .exact, 1⟩]) (ma ++ [a.path])
        refine ⟨⟨v, a, .exact, 1⟩ :: l, by simpa using he, ?_, ?_⟩
        · exact hs.cons₂ v
        · intro m hm
          rcases List.mem_cons.mp hm with heq | hm'
          · rw [heq]
          · exact hx m hm'

theorem fuzzyLoop_extend (th : ℚ) (vs : List MediaFile)
    (ms : List MatchResult) (pool : List MediaFile) :
    ∃ l, (fuzzyLoop th vs ms pool).1 = ms ++ l ∧
      (l.map (fun m => m.video)).Sublist vs ∧
      ∀ m ∈ l, m.mtype = MatchType.similar := by
  induction vs generalizing ms pool with
  | nil => exact ⟨[], by simp [fuzzyLoop], List.nil_sublist _, by simp⟩
  | cons v vt ih =>
    simp only [fuzzyLoop]
    cases hbest : bestLoop th (fun a => similarity v.stem a.stem) pool (none, 0) with
    | mk bm bs =>
      cases bm with
      | none =>
        dsimp only
        obtain ⟨l, he, hs, hx⟩ := ih ms pool
        exact ⟨l, he, hs.cons v, hx⟩
      | some a =>
        dsimp only
        obtain ⟨l, he, hs, hx⟩ := ih (ms ++ [⟨v, a, .similar, bs⟩]) (removeFirst a pool)
        refine ⟨⟨v, a, .similar, bs⟩ :: l, by simpa using he, ?_, ?_⟩
        · exact hs.cons₂ v
        · intro m hm
          rcases List.mem_cons.mp hm with heq | hm'
          · rw [heq]
          · exact hx m hm'

theorem submitLoopAux_all_true (tasks : List MatchResult) (i : Nat) :
    submitLoopAux (fun _ => true) i tasks = tasks := by
  induction tasks generalizing i with
  | nil => rfl
  | cons m rest ih => simp [submitLoopAux, ih]

/-- C10: the list returned by `match_files` is the exact-pass matches
followed by the fuzzy-pass matches: every Exact candidate precedes every
Fuzzy candidate, the Exact candidates' videos appear in catalog order (a
sublist of the video catalog) and the Fuzzy candidates' videos in the
catalog order of the videos left unmatched by the exact pass; the
orchestrator's submission loop processes the list in order (with no
cancellation it starts exactly the list, in list order), so every exact
pairing is dispatched before any fuzzy pairing. -/
theorem C10_exact_before_fuzzy (videos audios : List MediaFile) (th : ℚ) :
    ∃ fz, match_files videos audios th = exactPassMatches videos audios ++ fz ∧
      (∀ m ∈ exactPassMatches videos audios, m.mtype = MatchType.exact) ∧
      (∀ m ∈ fz, m.mtype = MatchType.similar) ∧
      ((exactPassMatches videos audios).map (fun m => m.video)).Sublist videos ∧
      (fz.map (fun m => m.video)).Sublist
        (unmatchedVideos videos (exactPassMatches videos audios)) ∧
      submitLoop (fun _ => true) (match_files videos audios th) =
        match_files videos audios th := by
  obtain ⟨ex, hex, hexs, hext⟩ :=
    exactLoop_extend (buildAudioDict audios) videos [] []
  have hexeq : exactPassMatches videos audios = ex := by
    rw [exactPassMatches, hex]
    rfl
  obtain ⟨fz, hfz, hfzs, hfzt⟩ := fuzzyLoop_extend th
    (unmatchedVideos videos (exactLoop (buildAudioDict audios) videos [] []).1)
    (exactLoop (buildAudioDict audios) videos [] []).1
    (unmatchedAudios audios (exactLoop (buildAudioDict audios) videos [] []).2)
  refine ⟨fz, ?_, ?_, hfzt, ?_, ?_, submitLoopAux_all_true _ 0⟩
  · show (fuzzyLoop th
        (unmatchedVideos videos (exactLoop (buildAudioDict audios) videos [] []).1)
        (exactLoop (buildAudioDict audios) videos [] []).1
        (unmatchedAudios audios (exactLoop (buildAudioDict audios) videos [] []).2)).1 =
      exactPassMatches videos audios ++ fz
    rw [hfz, exactPassMatches]
  · intro m hm
    rw [hexeq] at hm
    exact hext m (by simpa [hex] using hm)
  · rw [hexeq]
    simpa [hex] using hexs
  · have hloop : (exactLoop (buildAudioDict audios) videos [] []).1 = ex := by
      rw [hex]
      rfl
    rw [hexeq, ← hloop]
    exact hfzs

/-- C10 witness: the ordering theorem applied to a concrete catalog. -/
theorem C10_witness :
    ∃ fz, match_files [⟨"v1.mp4", "ep1"⟩] [⟨"a1.m4a", "ep1"⟩] (8 / 10) =
        exactPassMatches [⟨"v1.mp4", "ep1"⟩] [⟨"a1.m4a", "ep1"⟩] ++ fz ∧
      (∀ m ∈ exactPassMatches [⟨"v1.mp4", "ep1"⟩] [⟨"a1.m4a", "ep1"⟩],
        m.mtype = MatchType.exact) ∧
      (∀ m ∈ fz, m.mtype = MatchType.similar) ∧
      ((exactPassMatches [⟨"v1.mp4", "ep1"⟩] [⟨"a1.m4a", "ep1"⟩]).map
        (fun m => m.video)).Sublist [⟨"v1.mp4", "ep1"⟩] ∧
      (fz.map (fun m => m.video)).Sublist
        (unmatchedVideos [⟨"v1.mp4", "ep1"⟩]
          (exactPassMatches [⟨"v1.mp4", "ep1"⟩] [⟨"a1.m4a", "ep1"⟩])) ∧
      submitLoop (fun _ => true)
          (match_files [⟨"v1.mp4", "ep1"⟩] [⟨"a1.m4a", "ep1"⟩] (8 / 10)) =
        match_files [⟨"v1.mp4", "ep1"⟩] [⟨"a1.m4a", "ep1"⟩] (8 / 10) :=
  C10_exact_before_fuzzy _ _ _

/-! ## C9: the FFmpeg progress parser (gui_v3)

A status line is abstracted by the outcome of the regex searches
`parse_duration` / `parse_progress` run on it (`Duration: h:m:s.f`,
`time=h:m:s.f`, `frame=`, `fps=`, `speed=`); `none` means the pattern did
not match the line. The update logic is translated verbatim. -/

/-- `FFmpegProgress.__init__` (gui_v3 lines 31-38). -/
structure FFState where
  duration : ℚ
  current_time : ℚ
  frame : Nat
  fps : Nat
  bitrate : ℚ
  speed : ℚ
  percentage : ℚ
deriving DecidableEq, Repr

def initFFState : FFState := ⟨0, 0, 0, 0, 0, 0, 0⟩

/-- The tokens a status line yields to the parser's regexes. -/
structure LineTokens where
  durTok : Option (Nat × Nat × ℚ)
  timeTok : Option (Nat × Nat × ℚ)
  frameTok : Option Nat
  fpsTok : Option Nat
  speedTok : Option ℚ
deriving Repr

/-- `hours * 3600 + minutes * 60 + seconds`. -/
def hmsToSeconds : Nat × Nat × ℚ → ℚ
  | (h, m, s) => h * 3600 + m * 60 + s

/-- `FFmpegProgress.parse_duration` (lines 40-49). -/
def parse_duration (st : FFState) (tok : LineTokens) : FFState × Bool :=
  match tok.durTok with
  | some hms => ({ st with duration := hmsToSeconds hms }, true)
  | none => (st, false)

/-- The `time=` block of `parse_progress` (lines 57-64). -/
def ppTime (st : FFState) (tok : LineTokens) : FFState × Bool :=
  match tok.timeTok with
  | some hms => ({ st with current_time := hmsToSeconds hms }, true)
  | none => (st, false)

/-- The `frame=` block (lines 66-69). -/
def ppFrame (st : FFState) (tok : LineTokens) : FFState :=
  match tok.frameTok with
  | some f => { st with frame := f }
  | none => st

/-- The `fps=` block (lines 71-74). -/
def ppFps (st : FFState) (tok : LineTokens) : FFState :=
  match tok.fpsTok with
  | some f => { st with fps := f }
  | none => st

/-- The `speed=` block (lines 76-79). -/
def ppSpeed (st : FFState) (tok : LineTokens) : FFState :=
  match tok.speedTok with
  | some sp => { st with speed := sp }
  | none => st

/-- The percentage recomputation (lines 81-83):
`if self.duration > 0 and self.current_time > 0`. -/
def ppPct (st : FFState) : FFState :=
  if 0 < st.duration ∧ 0 < st.current_time then
    { st with percentage := min 100 (st.current_time / st.duration * 100) }
  else st

/-- `FFmpegProgress.parse_progress` (lines 52-85): the four independent
token updates in source order, then the percentage recomputation; the
returned flag reports whether a `time=` token was parsed. -/
def parse_progress (st : FFState) (tok : LineTokens) : FFState × Bool :=
  let p1 := ppTime st tok
  (ppPct (ppSpeed (ppFps (ppFrame p1.1 tok) tok) tok), p1.2)

/-- One line of the v3 merge loop (lines 766-775): `parse_duration` is
attempted only while `duration == 0`. -/
def pdStep (st : FFState) (tok : LineTokens) : FFState :=
  if st.duration = 0 then (parse_duration st tok).1 else st

/-- Feed one status line to the parser as the v3 merge loop does. -/
def feedLine (st : FFState) (tok : LineTokens) : FFState :=
  (parse_progress (pdStep st tok) tok).1

/-- The parser state after consuming a sequence of status lines. -/
def feedLines (toks : List LineTokens) : FFState :=
  toks.foldl feedLine initFFState

/-- The `current_time` value after the `time=` block. -/
def newCt (st : FFState) (tok : LineTokens) : ℚ :=
  match tok.timeTok with
  | some hms => hmsToSeconds hms
  | none => st.current_time

theorem ppTime_duration (st : FFState) (tok : LineTokens) :
    (ppTime st tok).1.duration = st.duration := by
  unfold ppTime
  rcases tok.timeTok with _ | hms <;> rfl

theorem ppTime_current_time (st : FFState) (tok : LineTokens) :
    (ppTime st tok).1.current_time = newCt st tok := by
  unfold ppTime newCt
  rcases tok.timeTok with _ | hms <;> rfl

theorem ppTime_percentage (st : FFState) (tok : LineTokens) :
    (ppTime st tok).1.percentage = st.percentage := by
  unfold ppTime
  rcases tok.timeTok with _ | hms <;> rfl

theorem ppFrame_fields (st : FFState) (tok : LineTokens) :
    (ppFrame st tok).duration = st.duration ∧
      (ppFrame st tok).current_time = st.current_time ∧
      (ppFrame st tok).percentage = st.percentage := by
  unfold ppFrame
  rcases tok.frameTok with _ | f <;> exact ⟨rfl, rfl, rfl⟩

theorem ppFps_fields (st : FFState) (tok : LineTokens) :
    (ppFps st tok).duration = st.duration ∧
      (ppFps st tok).current_time = st.current_time ∧
      (ppFps st tok).percentage = st.percentage := by
  unfold ppFps
  rcases tok.fpsTok with _ | f <;> exact ⟨rfl, rfl, rfl⟩

theorem ppSpeed_fields (st : FFState) (tok : LineTokens) :
    (ppSpeed st tok).duration = st.duration ∧
      (ppSpeed st tok).current_time = st.current_time ∧
      (ppSpeed st tok).percentage = st.percentage := by
  unfold ppSpeed
  rcases tok.speedTok with _ | sp <;> exact ⟨rfl, rfl, rfl⟩

theorem ppPct_duration (st : FFState) : (ppPct st).duration = st.duration := by
  unfold ppPct
  split <;> rfl

theorem ppPct_current_time (st : FFState) :
    (ppPct st).current_time = st.current_time := by
  unfold ppPct
  split <;> rfl

theorem ppPct_percentage (st : FFState) :
    (ppPct st).percentage =
      if 0 < st.duration ∧ 0 < st.current_time then
        min 100 (st.current_time / st.duration * 100)
      else st.percentage := by
  unfold ppPct
  split <;> simp_all

theorem pp_duration (st : FFState) (tok : LineTokens) :
    (parse_progress st tok).1.duration = st.duration := by
  unfold parse_progress
  rw [ppPct_duration, (ppSpeed_fields _ _).1, (ppFps_fields _ _).1,
    (ppFrame_fields _ _).1, ppTime_duration]

theorem pp_current_time (st : FFState) (tok : LineTokens) :
    (parse_progress st tok).1.current_time = newCt st tok := by
  unfold parse_progress
  rw [ppPct_current_time, (ppSpeed_fields _ _).2.1, (ppFps_fields _ _).2.1,
    (ppFrame_fields _ _).2.1, ppTime_current_time]

theorem pp_percentage (st : FFState) (tok : LineTokens) :
    (parse_progress st tok).1.percentage =
      if 0 < st.duration ∧ 0 < newCt st tok then
        min 100 (newCt st tok / st.duration * 100)
      else st.percentage := by
  unfold parse_progress
  rw [ppPct_percentage, (ppSpeed_fields _ _).1, (ppFps_fields _ _).1,
    (ppFrame_fields _ _).1, ppTime_duration, (ppSpeed_fields _ _).2.1,
    (ppFps_fields _ _).2.1, (ppFrame_fields _ _).2.1, ppTime_current_time,
    (ppSpeed_fields _ _).2.2, (ppFps_fields _ _).2.2, (ppFrame_fields _ _).2.2,
    ppTime_percentage]

theorem pd_current_time (st : FFState) (tok : LineTokens) :
    (parse_duration st tok).1.current_time = st.current_time := by
  unfold parse_duration
  rcases tok.durTok with _ | hms <;> rfl

theorem pd_percentage (st : FFState) (tok : LineTokens) :
    (parse_duration st tok).1.percentage = st.percentage := by
  unfold parse_duration
  rcases tok.durTok with _ | hms <;> rfl

theorem pdStep_current_time (st : FFState) (tok : LineTokens) :
    (pdStep st tok).current_time = st.current_time := by
  unfold pdStep
  split
  · exact pd_current_time st tok
  · rfl

theorem pdStep_percentage (st : FFState) (tok : LineTokens) :
    (pdStep st tok).percentage = st.percentage := by
  unfold pdStep
  split
  · exact pd_percentage st tok
  · rfl

/-- The reachable-state invariant of the parser: while no duration has
been parsed the percentage is still 0, and once `duration > 0` and
`current_time > 0` hold the percentage equals the derived formula. -/
def PctInv (st : FFState) : Prop :=
  (st.duration = 0 → st.percentage = 0) ∧
  (0 < st.duration → 0 < st.current_time →
    st.percentage = min 100 (st.current_time / st.duration * 100))

theorem pdStep_duration_of_ne (st : FFState) (tok : LineTokens)
    (h : st.duration ≠ 0) : pdStep st tok = st := by
  unfold pdStep
  rw [if_neg h]

theorem feedLine_inv (st : FFState) (tok : LineTokens) (h : PctInv st) :
    PctInv (feedLine st tok) := by
  obtain ⟨h1, h2⟩ := h
  constructor
  · intro hd0
    unfold feedLine at hd0 ⊢
    rw [pp_duration] at hd0
    rw [pp_percentage, if_neg (by rw [hd0]; rintro ⟨hlt, _⟩; exact lt_irrefl 0 hlt),
      pdStep_percentage]
    by_cases hz : st.duration = 0
    · exact h1 hz
    · rw [pdStep_duration_of_ne st tok hz] at hd0
      exact absurd hd0 hz
  · intro hd hct
    unfold feedLine at hd hct ⊢
    rw [pp_duration] at hd
    rw [pp_current_time] at hct
    rw [pp_percentage, if_pos ⟨hd, hct⟩, pp_duration, pp_current_time]

theorem foldl_feedLine_inv (toks : List LineTokens) (st : FFState)
    (h : PctInv st) : PctInv (toks.foldl feedLine st) := by
  induction toks generalizing st with
  | nil => exact h
  | cons t ts ih => exact ih _ (feedLine_inv st t h)

theorem feedLines_inv (toks : List LineTokens) : PctInv (feedLines toks) :=
  foldl_feedLine_inv toks initFFState
    ⟨fun _ => rfl, fun hlt _ => absurd hlt (by norm_num [initFFState])⟩

/-- C9 (amended): on each fed line the percentage is recomputed as
`min(100, current_time / duration * 100)` exactly when **both**
`duration > 0` and the (possibly just-updated) elapsed `current_time > 0`
hold — not merely when `duration > 0`; otherwise it keeps its previous
value. Consequently, on a line from which no elapsed time can be parsed
the percentage never regresses. -/
theorem C9_percentage_update (toks : List LineTokens) (tok : LineTokens) :
    ((feedLine (feedLines toks) tok).percentage =
      if 0 < (feedLine (feedLines toks) tok).duration ∧
          0 < (feedLine (feedLines toks) tok).current_time then
        min 100 ((feedLine (feedLines toks) tok).current_time /
          (feedLine (feedLines toks) tok).duration * 100)
      else (feedLines toks).percentage) ∧
    (tok.timeTok = none →
      (feedLines toks).percentage ≤ (feedLine (feedLines toks) tok).percentage) := by
  obtain ⟨h1, h2⟩ := feedLines_inv toks
  constructor
  · unfold feedLine
    rw [pp_percentage, pp_duration, pp_current_time, pdStep_percentage]
  · intro htn
    unfold feedLine
    have hct : newCt (pdStep (feedLines toks) tok) tok =
        (feedLines toks).current_time := by
      unfold newCt
      rw [htn, pdStep_current_time]
    by_cases hc : 0 < (pdStep (feedLines toks) tok).duration ∧
        0 < newCt (pdStep (feedLines toks) tok) tok
    · rw [pp_percentage, if_pos hc]
      by_cases hdz : (feedLines toks).duration = 0
      · rw [h1 hdz]
        refine le_min (by norm_num) (le_of_lt ?_)
        have hpos : 0 < newCt (pdStep (feedLines toks) tok) tok /
            (pdStep (feedLines toks) tok).duration :=
          div_pos hc.2 hc.1
        exact mul_pos hpos (by norm_num)
      · have hdd : (pdStep (feedLines toks) tok).duration =
            (feedLines toks).duration := by
          rw [pdStep_duration_of_ne _ _ hdz]
        rw [hct, hdd] at hc ⊢
        exact le_of_eq (h2 hc.1 hc.2)
    · rw [pp_percentage, if_neg hc, pdStep_percentage]

/-- C9 (counterexample): feed `Duration: 10s`, then `time=5s` (percentage
becomes 50), then `time=0s`. The claim says the percentage is recomputed
whenever the parsed duration is positive, which would yield
`min(100, 0/10*100) = 0`; the code additionally requires
`current_time > 0` and leaves the percentage at 50. -/
theorem C9_counterexample :
    (feedLines [⟨some (0, 0, 10), none, none, none, none⟩,
        ⟨none, some (0, 0, 5), none, none, none⟩,
        ⟨none, some (0, 0, 0), none, none, none⟩]).duration = 10 ∧
    (feedLines [⟨some (0, 0, 10), none, none, none, none⟩,
        ⟨none, some (0, 0, 5), none, none, none⟩,
        ⟨none, some (0, 0, 0), none, none, none⟩]).current_time = 0 ∧
    (feedLines [⟨some (0, 0, 10), none, none, none, none⟩,
        ⟨none, some (0, 0, 5), none, none, none⟩,
        ⟨none, some (0, 0, 0), none, none, none⟩]).percentage = 50 ∧
    min 100 ((0 : ℚ) / 10 * 100) = 0 ∧ (50 : ℚ) ≠ 0 := by
  have e0 : feedLine initFFState ⟨some (0, 0, 10), none, none, none, none⟩ =
      ⟨10, 0, 0, 0, 0, 0, 0⟩ := by
    unfold feedLine pdStep parse_duration parse_progress ppTime ppFrame ppFps
      ppSpeed ppPct initFFState hmsToSeconds
    norm_num
  have e1 : feedLine ⟨10, 0, 0, 0, 0, 0, 0⟩
      ⟨none, some (0, 0, 5), none, none, none⟩ = ⟨10, 5, 0, 0, 0, 0, 50⟩ := by
    unfold feedLine pdStep parse_duration parse_progress ppTime ppFrame ppFps
      ppSpeed ppPct hmsToSeconds
    norm_num
  have e2 : feedLine ⟨10, 5, 0, 0, 0, 0, 50⟩
      ⟨none, some (0, 0, 0), none, none, none⟩ = ⟨10, 0, 0, 0, 0, 0, 50⟩ := by
    unfold feedLine pdStep parse_duration parse_progress ppTime ppFrame ppFps
      ppSpeed ppPct hmsToSeconds
    norm_num
  have hall : feedLines [⟨some (0, 0, 10), none, none, none, none⟩,
      ⟨none, some (0, 0, 5), none, none, none⟩,
      ⟨none, some (0, 0, 0), none, none, none⟩] = ⟨10, 0, 0, 0, 0, 0, 50⟩ := by
    unfold feedLines
    rw [List.foldl_cons, e0, List.foldl_cons, e1, List.foldl_cons, e2,
      List.foldl_nil]
  rw [hall]
  norm_num

/-- C9 witness: the amended theorem applied to a concrete state (duration
10s, elapsed 5s) and a line with only a `frame=` token. -/
theorem C9_witness :
    ((feedLine (feedLines [⟨some (0, 0, 10), none, none, none, none⟩,
          ⟨none, some (0, 0, 5), none, none, none⟩])
        ⟨none, none, some 7, none, none⟩).percentage =
      if 0 < (feedLine (feedLines [⟨some (0, 0, 10), none, none, none, none⟩,
            ⟨none, some (0, 0, 5), none, none, none⟩])
          ⟨none, none, some 7, none, none⟩).duration ∧
          0 < (feedLine (feedLines [⟨some (0, 0, 10), none, none, none, none⟩,
            ⟨none, some (0, 0, 5), none, none, none⟩])
          ⟨none, none, some 7, none, none⟩).current_time then
        min 100 ((feedLine (feedLines [⟨some (0, 0, 10), none, none, none, none⟩,
            ⟨none, some (0, 0, 5), none, none, none⟩])
          ⟨none, none, some 7, none, none⟩).current_time /
          (feedLine (feedLines [⟨some (0, 0, 10), none, none, none, none⟩,
            ⟨none, some (0, 0, 5), none, none, none⟩])
          ⟨none, none, some 7, none, none⟩).duration * 100)
      else (feedLines [⟨some (0, 0, 10), none, none, none, none⟩,
          ⟨none, some (0, 0, 5), none, none, none⟩]).percentage) ∧
    (feedLines [⟨some (0, 0, 10), none, none, none, none⟩,
        ⟨none, some (0, 0, 5), none, none, none⟩]).percentage ≤
      (feedLine (feedLines [⟨some (0, 0, 10), none, none, none, none⟩,
          ⟨none, some (0, 0, 5), none, none, none⟩])
        ⟨none, none, some 7, none, none⟩).percentage := by
  have h := C9_percentage_update
    [⟨some (0, 0, 10), none, none, none, none⟩,
      ⟨none, some (0, 0, 5), none, none, none⟩]
    ⟨none, none, some 7, none, none⟩
  exact ⟨h.1, h.2 rfl⟩

end VAM
